import Mathlib

/-!
Verification of the bantam Pratt-parser package (Go).

The development shallowly embeds the source files `lexer.go` (token model and
the push-back token stack) and `bantam.go` (the Pratt parsing engine, its
handler registries and the AST node model with its textual rendering) as
executable Lean definitions, and proves the specified properties about them.

Conventions of the embedding:
* the Go `Lexer` interface is modelled by the remaining list of tokens the
  source will produce; once exhausted it yields the end-of-input token forever,
* Go panics raised by `errorf` / `Expect` are modelled by an `Except` error
  carrying the panic value (a string, exactly as in the source),
* the recursion of `parseExpression` is made total with an explicit fuel
  parameter; running out of fuel is a distinguished error that corresponds to
  no Go behaviour and never occurs for sufficient fuel.
-/

set_option autoImplicit false
set_option linter.unnecessarySeqFocus false

namespace Bantam

/-- TokenType enumerates the token kinds of lexer.go (the `const` block). -/
inductive TokenType where
  | eof
  | name
  | asterisk
  | slash
  | plus
  | minus
  | caret
  | tilde
  | assignment
  | question
  | exclamation
  | parenL
  | parenR
  | colon
  | comma
deriving DecidableEq, Repr

/-- Display names of token types, from the `tokenNames` map of lexer.go.
`TokenName` has no entry there (in the Go source the fallback branch of
`TokenType.String` would recurse forever on it, but it is never reached for
tokens that render). -/
def tokenNames : TokenType → Option String
  | .eof => some "EOF"
  | .asterisk => some "*"
  | .slash => some "/"
  | .plus => some "+"
  | .minus => some "-"
  | .caret => some "^"
  | .tilde => some "~"
  | .assignment => some "="
  | .question => some "?"
  | .exclamation => some "!"
  | .parenL => some "("
  | .parenR => some ")"
  | .colon => some ":"
  | .comma => some ","
  | .name => none

/-- Total restriction of `TokenType.String` (lexer.go) to kinds that have a
display name.  It is used only where such a kind is guaranteed — the operator
kinds stored in rendered nodes, all of which come from the registries and
have `tokenNames` entries — so its placeholder branch is never reached.  The
real fallback of `TokenType.String` diverges; where that behaviour matters
this development uses `TokenType.strF` instead. -/
def TokenType.str (t : TokenType) : String :=
  (tokenNames t).getD "<unnamed>"

/-- Partial rendering of a token type by `TokenType.String` of lexer.go: the
display name when `tokenNames` has one.  For any other kind (only `TokenName`)
the Go fallback `fmt.Sprintf("<%s>", t)` formats `t` with `%s`, calling
`TokenType.String` again — an infinite recursion that fatally crashes the
process with a stack overflow.  That divergence is modelled as `none`. -/
def TokenType.strF (t : TokenType) : Option String :=
  tokenNames t

/-- Token is the `Token` struct of lexer.go. -/
structure Token where
  type : TokenType
  text : String
deriving DecidableEq, Repr

/-- Rendering of a token (`Token.String` in lexer.go): the kind name when it
has one, otherwise the token's text. -/
def Token.str (t : Token) : String :=
  match tokenNames t.type with
  | some s => s
  | none => t.text

/-- Token produced by an exhausted token source (`Token{Type: TokenEOF}`). -/
def eofTok : Token := ⟨.eof, ""⟩

/-- Stack is the `Stack` struct of lexer.go: the push-back buffer `tokens`
with its live length `count`, plus the tokens the underlying lexer has yet to
produce (after which it yields `eofTok` forever). -/
structure Stack where
  tokens : List Token
  count : Nat
  lexRest : List Token
deriving DecidableEq, Repr

/-- NewStack for a lexer that will produce `ts` and then end-of-input. -/
def NewStack (ts : List Token) : Stack := ⟨[], 0, ts⟩

/-- Pop is `Stack.Pop` of lexer.go: take from the push-back buffer if
non-empty (highest live index first), otherwise ask the lexer. -/
def Stack.pop (s : Stack) : Token × Stack :=
  if s.count = 0 then
    match s.lexRest with
    | [] => (eofTok, s)
    | t :: r => (t, { s with lexRest := r })
  else
    (s.tokens.getD (s.count - 1) eofTok, { s with count := s.count - 1 })

/-- Push is `Stack.Push` of lexer.go:
`s.tokens = append(s.tokens[:s.count], t...)` and `s.count += len(t)`. -/
def Stack.push (s : Stack) (ts : List Token) : Stack :=
  { s with tokens := s.tokens.take s.count ++ ts, count := s.count + ts.length }

/-- Helper for the slow path of Peek: pop `n` tokens, returned in pop order. -/
def Stack.popN (s : Stack) : Nat → List Token × Stack
  | 0 => ([], s)
  | n + 1 =>
    let p := s.pop
    let q := p.2.popN n
    (p.1 :: q.1, q.2)

/-- Peek is `Stack.Peek` of lexer.go restricted to non-negative indices (the
negative case is a Go panic declared a programming error).  `index = 0` pops
one token and pushes it back; `0 < index < count` reads `s.tokens[index]`
directly; otherwise `index+1` tokens are popped into an array whose slot
`index` receives the first pop and slot `0` the last (so the array is the
reverse of pop order), the whole array is pushed back, and slot `0` is
returned. -/
def Stack.peek (s : Stack) (index : Nat) : Token × Stack :=
  if index = 0 then
    let p := s.pop
    (p.1, p.2.push [p.1])
  else if index < s.count then
    (s.tokens.getD index eofTok, s)
  else
    let q := s.popN (index + 1)
    let arr := q.1.reverse
    (arr.headD eofTok, q.2.push arr)

/-- Rendering of a `[]TokenType` slice by Go's `%s` verb, as it appears in
the panic message of `Stack.Expect`: each element is formatted with
`TokenType.String`, so the whole format diverges (fatally) as soon as one
element's kind has no display name. -/
def fmtTypes (ts : List TokenType) : Option String :=
  match ts.mapM TokenType.strF with
  | some ns => some ("[" ++ String.intercalate " " ns ++ "]")
  | none => none

/-- Failure signals of the package: `errorf` and `Expect` panic with a plain
formatted string (`str`, recoverable); `fatal` is the unrecoverable stack
overflow raised when a panic message's formatting diverges (the `TokenName`
fallback of `TokenType.String`).  `outOfFuel` is the embedding's artefact for
exhausted recursion fuel and corresponds to no Go behaviour. -/
inductive PanicV where
  | str (msg : String)
  | fatal
  | outOfFuel
deriving DecidableEq, Repr

/-- The panic message of `Stack.Expect`,
`fmt.Sprintf("expected token %s and found %s", expected, t.Type)`: `none`
when formatting either operand diverges (a kind without a display name). -/
def expectMsg (expected : List TokenType) (found : TokenType) : Option String :=
  match fmtTypes expected, found.strF with
  | some es, some fs => some ("expected token " ++ es ++ " and found " ++ fs)
  | _, _ => none

/-- Expect is `Stack.Expect` of lexer.go: pop a token; if its kind is among
`expected` return it, otherwise push it back and panic.  (The Go `switch` on
`len(expected)` — a direct comparison for one element, a loop otherwise — is
exactly list membership.)  The panic argument `fmt.Sprintf(...)` is evaluated
after the push-back; when that formatting diverges — the found token is
name-kinded, whose `TokenType.String` recurses forever — the process crashes
fatally instead of panicking, modelled by the `fatal` outcome.  The
post-state is returned alongside so that the buffer left behind by a failing
call can be observed. -/
def Stack.expect (s : Stack) (expected : List TokenType) :
    Except PanicV Token × Stack :=
  let p := s.pop
  if expected.contains p.1.type then
    (.ok p.1, p.2)
  else
    match expectMsg expected p.1.type with
    | some msg => (.error (.str msg), p.2.push [p.1])
    | none => (.error .fatal, p.2.push [p.1])

/-- Match is `Stack.Match` of lexer.go: pop a token; consume it and return
true when its kind is `expected`, otherwise push it back and return false. -/
def Stack.matchTok (s : Stack) (expected : TokenType) : Bool × Stack :=
  let p := s.pop
  if p.1.type = expected then (true, p.2) else (false, p.2.push [p.1])

/-- Well-formedness of a stack value: the live length never exceeds the
buffer's length.  Every stack reachable from `NewStack` satisfies it (Push
re-establishes `count = tokens.length`, Pop only decrements `count`). -/
def Stack.wf (s : Stack) : Prop := s.count ≤ s.tokens.length

instance (s : Stack) : Decidable s.wf := by
  unfold Stack.wf; infer_instance

/-- The virtual pending sequence of a stack: the tokens the buffer will yield,
in pop order, before the end-of-input padding starts. -/
def Stack.virt (s : Stack) : List Token :=
  (s.tokens.take s.count).reverse ++ s.lexRest

/-- Observable pop sequence of a stack: the token the `n+1`-th consecutive
pop would return (end-of-input once the virtual sequence is exhausted). -/
def Stack.popSeq (s : Stack) (n : Nat) : Token :=
  s.virt.getD n eofTok

/-- Node is the AST node model of node.go, one constructor per node struct.
`ternary` stores the `.Nodes` fields of the two `*ListNode` branch carriers,
and `fnCall` the `.Nodes` field of the argument `*ListNode`. -/
inductive Node where
  | name (s : String)
  | unary (op : TokenType) (right : Node)
  | postfixUn (left : Node) (op : TokenType)
  | binary (left : Node) (op : TokenType) (right : Node)
  | assign (target : String) (right : Node)
  | ternary (cond : Node) (thenList elseList : List Node)
  | fnCall (fn : Node) (args : List Node)
  | list (nodes : List Node)
deriving Repr

/-- The `listNode` helper of node.go: wrap a node into a ListNode carrier
unless it already is one (here: extract the node list). -/
def listNode : Node → List Node
  | .list ns => ns
  | n => [n]

mutual
/-- Render is the `String()` rendering of each node struct in node.go. -/
def Node.render : Node → String
  | .name s => s
  | .unary op r => "(" ++ op.str ++ r.render ++ ")"
  | .postfixUn l op => "(" ++ l.render ++ op.str ++ ")"
  | .binary l op r => "(" ++ l.render ++ " " ++ op.str ++ " " ++ r.render ++ ")"
  | .assign t r => "(" ++ t ++ " = " ++ r.render ++ ")"
  | .ternary c tl el =>
    "(" ++ c.render ++ " ? " ++ renderCat tl ++ " : " ++ renderCat el ++ ")"
  | .fnCall f args => f.render ++ "(" ++ renderArgs args ++ ")"
  | .list ns => renderCat ns

/-- Concatenated rendering with no separator (`ListNode.String`). -/
def renderCat : List Node → String
  | [] => ""
  | n :: ns => n.render ++ renderCat ns

/-- Comma-separated rendering (the loop in `FunctionNode.String`). -/
def renderArgs : List Node → String
  | [] => ""
  | [n] => n.render
  | n :: ns => n.render ++ ", " ++ renderArgs ns
end

/-- Values of the prefix-handler registry (bantam.go): `NameParser`,
`GroupParser` and `UnaryParser`, each carrying its underlying int. -/
inductive PrefixP where
  | nameP (v : Int)
  | groupP (v : Int)
  | unaryP (v : Int)
deriving DecidableEq, Repr

/-- Values of the infix-handler registry (bantam.go): one constructor per
`InfixParser` implementation, each carrying its underlying int. -/
inductive InfixP where
  | assignP (v : Int)
  | ternaryP (v : Int)
  | binaryP (v : Int)
  | binaryRightP (v : Int)
  | postfixP (v : Int)
  | functionP (v : Int)
deriving DecidableEq, Repr

/-- Precedence reported by each infix handler (its `Precedence()` method
returns the underlying int). -/
def InfixP.precedence : InfixP → Int
  | .assignP v => v
  | .ternaryP v => v
  | .binaryP v => v
  | .binaryRightP v => v
  | .postfixP v => v
  | .functionP v => v

/-- A handler registry is a partial map from token kinds, as the Go maps. -/
abbrev PrefixMap := TokenType → Option PrefixP

/-- A registry of infix handlers. -/
abbrev InfixMap := TokenType → Option InfixP

/-- The package-level `PrefixParsers` map of bantam.go (lines 47-54). -/
def PrefixParsers : PrefixMap := fun t =>
  match t with
  | .name => some (.nameP 0)
  | .parenL => some (.groupP 0)
  | .plus => some (.unaryP 6)
  | .minus => some (.unaryP 6)
  | .tilde => some (.unaryP 6)
  | .exclamation => some (.unaryP 6)
  | _ => none

/-- The package-level `InfixParsers` map of bantam.go (lines 57-67). -/
def InfixParsers : InfixMap := fun t =>
  match t with
  | .assignment => some (.assignP 1)
  | .question => some (.ternaryP 2)
  | .plus => some (.binaryP 3)
  | .minus => some (.binaryP 3)
  | .asterisk => some (.binaryP 4)
  | .slash => some (.binaryP 4)
  | .caret => some (.binaryRightP 5)
  | .exclamation => some (.postfixP 7)
  | .parenL => some (.functionP 8)
  | _ => none

/-- Result of a parsing step: a node with the stack left behind, or the
panic value that aborted the parse. -/
abbrev PRes := Except PanicV (Node × Stack)

/-- Precedence of the next pending token (`Parser.precedence`, bantam.go
lines 114-119): peek at distance 0 — which mutates the stack — and report the
registered infix handler's precedence, or 0 when none is registered.  The
instance infix registry `im` is consulted, as in the source. -/
def precedenceF (im : InfixMap) (s : Stack) : Int × Stack :=
  let p := s.peek 0
  match im p.1.type with
  | some ip => (ip.precedence, p.2)
  | none => (0, p.2)

/-- Recursion labels of the engine: `expr min` is a `parseExpression(min)`
call (bantam.go lines 95-111), `loop min left` is its infix loop with the
accumulated left node, and `fnArgs acc` is the argument loop of
`FunctionParser.Parse` with the ListNode built so far. -/
inductive Call where
  | expr (min : Int)
  | loop (min : Int) (left : Node)
  | fnArgs (acc : List Node)

/-- Sequencing of parsing steps with Go panic propagation: continue with the
produced node and stack, or let the panic unwind. -/
def bindRes (r : PRes) (k : Node → Stack → PRes) : PRes :=
  match r with
  | .error e => .error e
  | .ok (a, s) => k a s

/-- Sequencing after an `Expect` call: continue in the post-state if it
returned a token, or let its panic unwind. -/
def bindTok (r : Except PanicV Token × Stack) (k : Stack → PRes) : PRes :=
  match r.1 with
  | .error e => .error e
  | .ok _ => k r.2

/-- The parsing engine of bantam.go, fuel-indexed.  `expr` pops a token,
looks its kind up in the package-level `PrefixParsers` map (exactly as line
97 of the source does — the instance registry `pm` is carried on the parser
but not consulted there), runs the prefix handler and enters the infix loop.
The loop compares `min` with the precedence of the next pending token and,
while smaller, pops the token, looks it up in the instance infix registry
`im`, and runs the infix handler inline; each handler's body is the direct
translation of its `Parse` method. -/
def run (pm : PrefixMap) (im : InfixMap) : Nat → Call → Stack → PRes
  | 0, _, _ => .error .outOfFuel
  | f + 1, .expr min, s =>
    let tok := s.pop.1
    let s1 := s.pop.2
    match PrefixParsers tok.type with
    | none => .error (.str ("could not parse " ++ tok.str))
    | some (.nameP _) => run pm im f (.loop min (.name tok.text)) s1
    | some (.groupP v) =>
      bindRes (run pm im f (.expr v) s1) fun n s2 =>
        bindTok (s2.expect [.parenR]) fun s3 =>
          run pm im f (.loop min n) s3
    | some (.unaryP v) =>
      bindRes (run pm im f (.expr v) s1) fun r s2 =>
        run pm im f (.loop min (.unary tok.type r)) s2
  | f + 1, .loop min left, s =>
    let pr := (precedenceF im s).1
    let s1 := (precedenceF im s).2
    if min < pr then
      let tok := s1.pop.1
      let s2 := s1.pop.2
      match im tok.type with
      | none => .error (.str ("could not parse " ++ tok.str))
      | some (.assignP v) =>
        match left with
        | .name nm =>
          bindRes (run pm im f (.expr (v - 1)) s2) fun r s3 =>
            run pm im f (.loop min (.assign nm r)) s3
        | _ => .error (.str "the left-hand side of an assignment must be a name")
      | some (.ternaryP v) =>
        bindRes (run pm im f (.expr 0) s2) fun thenN s3 =>
          bindTok (s3.expect [.colon]) fun s4 =>
            bindRes (run pm im f (.expr (v - 1)) s4) fun elseN s5 =>
              run pm im f
                (.loop min (.ternary left (listNode thenN) (listNode elseN))) s5
      | some (.binaryP v) =>
        bindRes (run pm im f (.expr v) s2) fun r s3 =>
          run pm im f (.loop min (.binary left tok.type r)) s3
      | some (.binaryRightP v) =>
        bindRes (run pm im f (.expr (v - 1)) s2) fun r s3 =>
          run pm im f (.loop min (.binary left tok.type r)) s3
      | some (.postfixP _) =>
        run pm im f (.loop min (.postfixUn left tok.type)) s2
      | some (.functionP _) =>
        let m := (s2.matchTok .parenR).1
        let s3 := (s2.matchTok .parenR).2
        if m then run pm im f (.loop min (.fnCall left [])) s3
        else
          bindRes (run pm im f (.fnArgs []) s3) fun argsN s4 =>
            bindTok (s4.expect [.parenR]) fun s5 =>
              run pm im f (.loop min (.fnCall left (listNode argsN))) s5
    else .ok (left, s1)
  | f + 1, .fnArgs acc, s =>
    bindRes (run pm im f (.expr 0) s) fun a s1 =>
      let m := (s1.matchTok .comma).1
      let s2 := (s1.matchTok .comma).2
      if m then run pm im f (.fnArgs (acc ++ [a])) s2
      else .ok (.list (acc ++ [a]), s2)

/-- The `parseExpression` method of bantam.go (lines 95-111). -/
def parseExpression (pm : PrefixMap) (im : InfixMap) (fuel : Nat) (min : Int)
    (s : Stack) : PRes :=
  run pm im fuel (.expr min) s

/-- The infix loop of `parseExpression` (bantam.go lines 102-109), entered
with the node accumulated so far. -/
def parseLoop (pm : PrefixMap) (im : InfixMap) (fuel : Nat) (min : Int)
    (left : Node) (s : Stack) : PRes :=
  run pm im fuel (.loop min left) s

/-- The `AssignParser.Parse` method of bantam.go (lines 187-194): fail unless
the left node is a `NameNode`, otherwise parse the right side at `power - 1`
and build an `AssignNode`. -/
def AssignParser.parse (pm : PrefixMap) (im : InfixMap) (fuel : Nat)
    (power : Int) (left : Node) (s : Stack) : PRes :=
  match left with
  | .name n =>
    match run pm im fuel (.expr (power - 1)) s with
    | .error e => .error e
    | .ok (r, s1) => .ok (.assign n r, s1)
  | _ => .error (.str "the left-hand side of an assignment must be a name")

/-- Outcome of the top-level `Parse` (bantam.go lines 89-92): a node, an
error value returned to the caller, or a program-terminating fault that
escapes `Parse`. -/
inductive Outcome where
  | ok (n : Node)
  | errReturned (msg : String)
  | fault (msg : String)
deriving Repr

/-- The top-level `Parser.Parse` of bantam.go together with its deferred
`recover` (lines 122-134).  A parse failure panics with a string value (from
`errorf` or `Expect`); in `recover` that value is not a `runtime.Error`, so it
is not re-panicked, but the conversion `e.(error)` then fails — a Go string
does not implement `error` — and this failed type assertion panics with a
`runtime.TypeAssertionError`, which escapes `Parse` as a program-terminating
fault.  Fuel exhaustion is the embedding's artefact. -/
def Parse (pm : PrefixMap) (im : InfixMap) (fuel : Nat) (s : Stack) : Outcome :=
  match run pm im fuel (.expr 0) s with
  | .ok (n, _) => .ok n
  | .error (.str _) =>
    .fault "interface conversion: interface is string, not error"
  | .error .fatal => .fault "stack overflow"
  | .error .outOfFuel => .fault "out of fuel"

/-- Parse a token stream with the default registries — as the package tests
do with `&Parser{s, PrefixParsers, InfixParsers}` — and render the result. -/
def parseRender (ts : List Token) : Option String :=
  match run PrefixParsers InfixParsers 64 (.expr 0) (NewStack ts) with
  | .ok (n, _) => some n.render
  | .error _ => none

/-- Name token helper for concrete test streams. -/
def nameTok (s : String) : Token := ⟨.name, s⟩

/-- Operator token helper for concrete test streams. -/
def opTok (t : TokenType) : Token := ⟨t, ""⟩

section StackLemmas

variable {α : Type}

theorem getD_zero_headD (l : List α) (d : α) : l.getD 0 d = l.headD d := by
  cases l <;> rfl

theorem getD_tail (l : List α) (d : α) (n : Nat) :
    l.tail.getD n d = l.getD (n + 1) d := by
  cases l <;> rfl

theorem getD_headD_cons_tail (l : List α) (d : α) (n : Nat) :
    (l.headD d :: l.tail).getD n d = l.getD n d := by
  cases l with
  | nil => cases n <;> simp [List.getD]
  | cons x xs => rfl

theorem getD_drop (l : List α) (d : α) (k n : Nat) :
    (l.drop k).getD n d = l.getD (k + n) d := by
  induction k generalizing l with
  | zero => simp
  | succ k ih =>
    cases l with
    | nil => simp [List.getD]
    | cons x xs =>
      rw [List.drop_succ_cons, ih, show k + 1 + n = (k + n) + 1 from by omega]
      rfl

theorem take_succ_reverse (l : List α) (c : Nat) (d : α) (h : c < l.length) :
    (l.take (c + 1)).reverse = l.getD c d :: (l.take c).reverse := by
  rw [List.take_succ]
  have hg : l[c]? = some (l.getD c d) := by
    rw [List.getElem?_eq_getElem h, List.getD_eq_getElem l d h]
  rw [hg]
  simp

theorem Stack.pop_fst {s : Stack} (h : s.wf) : (s.pop).1 = s.virt.headD eofTok := by
  rcases s with ⟨tokens, count, lexRest⟩
  cases count with
  | zero =>
    cases lexRest <;> simp [Stack.pop, Stack.virt]
  | succ c =>
    have hc : c < tokens.length := h
    simp [Stack.pop, Stack.virt, take_succ_reverse tokens c eofTok hc]

theorem Stack.pop_virt {s : Stack} (h : s.wf) : (s.pop).2.virt = s.virt.tail := by
  rcases s with ⟨tokens, count, lexRest⟩
  cases count with
  | zero =>
    cases lexRest <;> simp [Stack.pop, Stack.virt]
  | succ c =>
    have hc : c < tokens.length := h
    simp [Stack.pop, Stack.virt, take_succ_reverse tokens c eofTok hc]

theorem Stack.wf_pop {s : Stack} (h : s.wf) : (s.pop).2.wf := by
  rcases s with ⟨tokens, count, lexRest⟩
  cases count with
  | zero => cases lexRest <;> exact h
  | succ c =>
    have hc : c + 1 ≤ tokens.length := h
    simp only [Stack.pop, if_neg (Nat.succ_ne_zero c), Stack.wf]
    omega

theorem Stack.push_virt {s : Stack} (h : s.wf) (ts : List Token) :
    (s.push ts).virt = ts.reverse ++ s.virt := by
  rcases s with ⟨tokens, count, lexRest⟩
  have hlen : (tokens.take count).length = count := by
    simpa using h
  simp only [Stack.push, Stack.virt]
  rw [show (tokens.take count ++ ts).take (count + ts.length)
      = tokens.take count ++ ts by
    have : (tokens.take count ++ ts).length = count + ts.length := by
      simp [hlen]
    rw [← this, List.take_length]]
  simp

theorem Stack.wf_push {s : Stack} (h : s.wf) (ts : List Token) :
    (s.push ts).wf := by
  rcases s with ⟨tokens, count, lexRest⟩
  have hlen : (tokens.take count).length = count := by simpa using h
  simp [Stack.push, Stack.wf, hlen]

theorem Stack.pop_popSeq {s : Stack} (h : s.wf) (n : Nat) :
    (s.pop).2.popSeq n = s.popSeq (n + 1) := by
  simp [Stack.popSeq, Stack.pop_virt h, getD_tail]

theorem Stack.pop_fst_popSeq {s : Stack} (h : s.wf) : (s.pop).1 = s.popSeq 0 := by
  rw [Stack.pop_fst h, Stack.popSeq, getD_zero_headD]

theorem Stack.popN_fst {s : Stack} (h : s.wf) (n : Nat) :
    (s.popN n).1 = (List.range n).map (fun j => s.virt.getD j eofTok) := by
  induction n generalizing s with
  | zero => simp [Stack.popN]
  | succ k ih =>
    have h1 : (s.pop).2.wf := Stack.wf_pop h
    simp only [Stack.popN, ih h1, List.range_succ_eq_map, List.map_cons,
      List.map_map]
    refine congrArg₂ List.cons ?_ ?_
    · exact Stack.pop_fst_popSeq h
    · refine List.map_congr_left fun j _ => ?_
      simp only [Function.comp]
      rw [Stack.pop_virt h, getD_tail]

theorem Stack.popN_virt {s : Stack} (h : s.wf) (n : Nat) :
    ((s.popN n).2).virt = s.virt.drop n := by
  induction n generalizing s with
  | zero => simp [Stack.popN]
  | succ k ih =>
    have h1 : (s.pop).2.wf := Stack.wf_pop h
    simp only [Stack.popN, ih h1, Stack.pop_virt h]
    rw [← List.drop_one, List.drop_drop]
    congr 1
    omega

theorem Stack.wf_popN {s : Stack} (h : s.wf) (n : Nat) : ((s.popN n).2).wf := by
  induction n generalizing s with
  | zero => simpa [Stack.popN]
  | succ k ih =>
    have h1 : (s.pop).2.wf := Stack.wf_pop h
    simp only [Stack.popN]
    exact ih h1

theorem getD_restored (l : List α) (d : α) (k n : Nat) :
    (((List.range k).map (fun j => l.getD j d)) ++ l.drop k).getD n d
      = l.getD n d := by
  by_cases hn : n < k
  · have h1 : n < ((List.range k).map (fun j => l.getD j d)).length := by
      simpa using hn
    rw [List.getD_append _ _ _ _ h1, List.getD_eq_getElem _ d h1]
    simp
  · rw [List.getD_append_right _ _ _ _ (by simpa using Nat.le_of_not_lt hn)]
    simp only [List.length_map, List.length_range]
    rw [getD_drop]
    congr 1
    omega

theorem Stack.pop_push_popSeq {s : Stack} (h : s.wf) (n : Nat) :
    ((s.pop.2.push [s.pop.1])).popSeq n = s.popSeq n := by
  have h1 : (s.pop).2.wf := Stack.wf_pop h
  simp only [Stack.popSeq, Stack.push_virt h1, List.reverse_singleton,
    List.singleton_append, Stack.pop_virt h, Stack.pop_fst h]
  exact getD_headD_cons_tail _ _ _

theorem Stack.peek_popSeq {s : Stack} (h : s.wf) (i : Nat) (n : Nat) :
    ((s.peek i).2).popSeq n = s.popSeq n := by
  rcases i with - | j
  · exact Stack.pop_push_popSeq h n
  · by_cases hc : j + 1 < s.count
    · simp only [Stack.peek, if_neg (Nat.succ_ne_zero j), if_pos hc]
    · have h1 : ((s.popN (j + 2)).2).wf := Stack.wf_popN h _
      simp only [Stack.peek, if_neg (Nat.succ_ne_zero j), if_neg hc]
      simp only [Stack.popSeq, Stack.push_virt h1, List.reverse_reverse,
        Stack.popN_fst h, Stack.popN_virt h]
      exact getD_restored _ _ _ _

theorem Stack.wf_peek {s : Stack} (h : s.wf) (i : Nat) : ((s.peek i).2).wf := by
  rcases i with - | j
  · exact Stack.wf_push (Stack.wf_pop h) _
  · by_cases hc : j + 1 < s.count
    · simpa only [Stack.peek, if_neg (Nat.succ_ne_zero j), if_pos hc] using h
    · simp only [Stack.peek, if_neg (Nat.succ_ne_zero j), if_neg hc]
      exact Stack.wf_push (Stack.wf_popN h _) _

theorem Stack.peek_zero_fst {s : Stack} (h : s.wf) : (s.peek 0).1 = s.popSeq 0 :=
  Stack.pop_fst_popSeq h

theorem expectMsg_empty (k : TokenType) :
    expectMsg [] k
      = (tokenNames k).map (fun ts => "expected token [] and found " ++ ts) := by
  cases htn : tokenNames k with
  | none =>
    unfold expectMsg TokenType.strF
    rw [htn]
    rfl
  | some ts =>
    unfold expectMsg TokenType.strF
    rw [htn]
    rfl

theorem Stack.expect_no_match (s : Stack) (expected : List TokenType)
    (h : expected.contains (s.pop.1).type = false) :
    s.expect expected
      = (match expectMsg expected (s.pop.1).type with
         | some msg => (.error (.str msg), (s.pop.2).push [s.pop.1])
         | none => (.error .fatal, (s.pop.2).push [s.pop.1])) := by
  unfold Stack.expect
  dsimp only
  rw [h]
  simp only [Bool.false_eq_true, if_false]

end StackLemmas

section TraceModel

/-- Client operations against the buffer: a consuming pop, a peek at a given
lookahead index, and a push that restores the `k` most recently popped tokens
(pushed back in reverse pop order, the restoring discipline `Peek` itself
uses, so that they pop again in their original order). -/
inductive BufOp where
  | popOp
  | peekOp (i : Nat)
  | pushOp (k : Nat)

/-- A buffer together with the tokens its client has consumed so far (pops
not later undone by a restoring push), in consumption order. -/
structure TraceSt where
  stack : Stack
  consumed : List Token

/-- One client operation: pop appends the returned token to the consumed
list; peek only mutates the buffer; push moves the `k` most recently consumed
tokens back into the buffer. -/
def stepOp : TraceSt → BufOp → TraceSt
  | ⟨s, c⟩, .popOp => ⟨(s.pop).2, c ++ [(s.pop).1]⟩
  | ⟨s, c⟩, .peekOp i => ⟨(s.peek i).2, c⟩
  | ⟨s, c⟩, .pushOp k =>
    ⟨s.push ((c.drop (c.length - k)).reverse), c.take (c.length - k)⟩

/-- Run a sequence of client operations against a fresh buffer over the
underlying token sequence `ts`. -/
def runOps (ts : List Token) (ops : List BufOp) : TraceSt :=
  ops.foldl stepOp ⟨NewStack ts, []⟩

/-- The token at position `n` of the underlying sequence, end-of-input padded. -/
def origAt (ts : List Token) (n : Nat) : Token := ts.getD n eofTok

/-- Trace invariant: the buffer is well-formed, its observable pop sequence
is the original sequence shifted past what was consumed, and the consumed
list is exactly the corresponding prefix of the original sequence. -/
def TraceInv (ts : List Token) (s : Stack) (c : List Token) : Prop :=
  s.wf
    ∧ (∀ n, s.popSeq n = origAt ts (c.length + n))
    ∧ c = (List.range c.length).map (origAt ts)

theorem getD_map_range {α : Type} (f : Nat → α) (len n : Nat) (d : α)
    (h : n < len) : ((List.range len).map f).getD n d = f n := by
  have h1 : n < ((List.range len).map f).length := by simpa using h
  rw [List.getD_eq_getElem _ d h1]
  simp

theorem stepOp_inv {ts : List Token} {s : Stack} {c : List Token}
    (hI : TraceInv ts s c) (op : BufOp) :
    TraceInv ts (stepOp ⟨s, c⟩ op).stack (stepOp ⟨s, c⟩ op).consumed := by
  obtain ⟨hw, hseq, hcons⟩ := hI
  cases op with
  | popOp =>
    refine ⟨Stack.wf_pop hw, ?_, ?_⟩
    · intro n
      show ((s.pop).2).popSeq n = origAt ts ((c ++ [(s.pop).1]).length + n)
      rw [Stack.pop_popSeq hw, hseq (n + 1)]
      simp only [List.length_append, List.length_cons, List.length_nil]
      congr 1
      omega
    · show c ++ [(s.pop).1]
        = (List.range (c ++ [(s.pop).1]).length).map (origAt ts)
      have hp : (s.pop).1 = origAt ts c.length := by
        rw [Stack.pop_fst_popSeq hw]
        simpa using hseq 0
      simp only [List.length_append, List.length_cons, List.length_nil]
      rw [show c.length + (0 + 1) = c.length + 1 from by omega,
        List.range_succ, List.map_append]
      simp only [List.map_cons, List.map_nil]
      rw [← hcons, hp]
  | peekOp i =>
    refine ⟨Stack.wf_peek hw i, ?_, hcons⟩
    intro n
    show ((s.peek i).2).popSeq n = origAt ts (c.length + n)
    rw [Stack.peek_popSeq hw i n]
    exact hseq n
  | pushOp k =>
    have hmle : c.length - k ≤ c.length := Nat.sub_le _ _
    have hdlen : (List.drop (c.length - k) c).length
        = c.length - (c.length - k) := by simp
    have htl : (List.take (c.length - k) c).length = c.length - k := by
      simp [Nat.min_eq_left hmle]
    have hgetc : ∀ j, j < c.length → c.getD j eofTok = origAt ts j := by
      intro j hj
      conv_lhs => rw [hcons]
      exact getD_map_range (origAt ts) c.length j eofTok hj
    refine ⟨Stack.wf_push hw _, ?_, ?_⟩
    · intro n
      show (s.push ((c.drop (c.length - k)).reverse)).popSeq n
        = origAt ts ((c.take (c.length - k)).length + n)
      rw [htl, Stack.popSeq, Stack.push_virt hw, List.reverse_reverse]
      by_cases hn : n < (c.drop (c.length - k)).length
      · rw [List.getD_append _ _ _ _ hn, getD_drop]
        have hlt : c.length - k + n < c.length := by
          rw [hdlen] at hn
          omega
        exact hgetc _ hlt
      · rw [List.getD_append_right _ _ _ _ (Nat.le_of_not_lt hn)]
        have h2 := hseq (n - (c.drop (c.length - k)).length)
        rw [Stack.popSeq] at h2
        rw [h2]
        congr 1
        have hge := Nat.le_of_not_lt hn
        rw [hdlen] at hge ⊢
        omega
    · show c.take (c.length - k)
        = (List.range (c.take (c.length - k)).length).map (origAt ts)
      rw [htl]
      have key : ∀ (l : List Token) (m : Nat),
          l = (List.range l.length).map (origAt ts) → m ≤ l.length →
            l.take m = (List.range m).map (origAt ts) := by
        intro l m hl hm
        conv_lhs => rw [hl]
        rw [← List.map_take, List.take_range, Nat.min_eq_left hm]
      exact key c (c.length - k) hcons hmle

theorem foldl_inv (ts : List Token) (ops : List BufOp) :
    ∀ st : TraceSt, TraceInv ts st.stack st.consumed →
      TraceInv ts (ops.foldl stepOp st).stack (ops.foldl stepOp st).consumed := by
  induction ops with
  | nil => intro st h; exact h
  | cons op ops ih =>
    intro st h
    rcases st with ⟨s, c⟩
    exact ih _ (stepOp_inv h op)

/-- Claim C5: for any sequence of peek, pop and restoring-push operations
against a fresh buffer over a fixed underlying token sequence, the tokens
eventually consumed by pop equal the original sequence, in original order
(they form exactly the consumed-length prefix of the end-of-input padded
original stream). -/
theorem buffer_restores_order (ts : List Token) (ops : List BufOp) :
    (runOps ts ops).consumed
      = (List.range (runOps ts ops).consumed.length).map (origAt ts) := by
  have hinit : TraceInv ts (NewStack ts) [] := by
    refine ⟨Nat.le_refl 0, fun n => ?_, rfl⟩
    simp [Stack.popSeq, Stack.virt, NewStack, origAt]
  exact (foldl_inv ts ops ⟨NewStack ts, []⟩ hinit).2.2

end TraceModel

section StackClaims

/-- Claim C3, counterexample: on the empty buffer, pushing the tokens
`[a, b]` and popping once yields `b`, not `a` — `Push` appends and `Pop`
takes the most recently pushed token first. -/
theorem push_pop_order_cex :
    (((NewStack []).push [nameTok "a", nameTok "b"]).pop).1 = nameTok "b"
      ∧ nameTok "b" ≠ nameTok "a" := by
  exact ⟨rfl, by decide⟩

/-- Claim C3 as amended: for every well-formed buffer state and every pair
of tokens `a`, `b`, pushing `[a, b]` and popping twice yields `b` first and
then `a` — the stack is LIFO, so a push restores tokens for re-popping in
the reverse of the order given (to make `a` pop before `b`, push `[b, a]`,
as `Peek` itself does). -/
theorem push_pop_order (s : Stack) (a b : Token) (h : s.wf) :
    ((s.push [a, b]).pop).1 = b ∧ (((s.push [a, b]).pop).2).pop.1 = a := by
  have h1 : (s.push [a, b]).wf := Stack.wf_push h _
  have hv : (s.push [a, b]).virt = b :: a :: s.virt := by
    rw [Stack.push_virt h]; rfl
  refine ⟨?_, ?_⟩
  · rw [Stack.pop_fst h1, hv]; rfl
  · have h2 := Stack.wf_pop h1
    rw [Stack.pop_fst h2, Stack.pop_virt h1, hv]
    rfl

/-- Witness for the amended claim C3 at a concrete buffer. -/
theorem push_pop_order_witness :
    (((NewStack []).push [nameTok "a", nameTok "b"]).pop).1 = nameTok "b"
      ∧ ((((NewStack []).push [nameTok "a", nameTok "b"]).pop).2).pop.1
        = nameTok "a" :=
  push_pop_order (NewStack []) (nameTok "a") (nameTok "b") (by decide)

/-- Claim C4, failing evaluation: over the stream `a, b`, the first
`Peek(1)` correctly returns `b` (the slow path), but a second `Peek(1)` on
the resulting buffer — whose pop sequence is unchanged, with `b` still at
lookahead distance 1 — takes the `index < count` fast path and returns `a`,
the token at lookahead distance 0. -/
theorem peek_index_bug :
    ((NewStack [nameTok "a", nameTok "b"]).peek 1).1 = nameTok "b"
      ∧ ((((NewStack [nameTok "a", nameTok "b"]).peek 1).2).peek 1).1
          = nameTok "a"
      ∧ (((NewStack [nameTok "a", nameTok "b"]).peek 1).2).popSeq 1
          = nameTok "b"
      ∧ nameTok "a" ≠ nameTok "b" := by
  exact ⟨rfl, rfl, rfl, by decide⟩

/-- Claim C10, counterexample: with an empty expected list and a name-kinded
next token, `Expect` does not raise the unexpected-token panic: the
`fmt.Sprintf` building the panic message formats the found `TokenType`, and
the display-name fallback of `TokenType.String` recurses forever, so the
process crashes fatally while formatting instead of panicking (the match
conjunct states that the outcome is not a string panic). -/
theorem expect_empty_name_cex :
    ((NewStack [nameTok "a"]).expect []).1 = .error .fatal
      ∧ (match ((NewStack [nameTok "a"]).expect []).1 with
         | .error (.str _) => False
         | _ => True) :=
  ⟨rfl, trivial⟩

/-- Claim C10 as amended: `Expect` with an empty list of expected kinds never
returns a token, for every well-formed buffer state: it pops one token and
pushes that same token back — leaving the observable pop sequence unchanged —
and then fails.  When the popped token's kind has a display name it raises
the unexpected-token panic naming the empty expected set and the found kind;
when the popped token is name-kinded, building that message crashes the
process fatally (the divergent display-name fallback), so no unexpected-token
panic value is produced. -/
theorem expect_empty_always_fails (s : Stack) (h : s.wf) :
    (s.expect []).1
        = .error (match tokenNames (s.pop.1).type with
          | some ts => PanicV.str ("expected token [] and found " ++ ts)
          | none => PanicV.fatal)
      ∧ ∀ n, ((s.expect []).2).popSeq n = s.popSeq n := by
  have hunf := Stack.expect_no_match s [] rfl
  constructor
  · rw [hunf, expectMsg_empty]
    cases tokenNames (s.pop.1).type <;> rfl
  · intro n
    rw [hunf]
    cases expectMsg [] (s.pop.1).type <;> exact Stack.pop_push_popSeq h n

/-- Witness for the amended claim C10 at a concrete buffer whose next token
is `:` (a kind with a display name). -/
theorem expect_empty_witness :
    ((NewStack [opTok .colon]).expect []).1
        = .error (match tokenNames ((NewStack [opTok .colon]).pop.1).type with
          | some ts => PanicV.str ("expected token [] and found " ++ ts)
          | none => PanicV.fatal)
      ∧ (((NewStack [opTok .colon]).expect []).2).popSeq 0
        = (NewStack [opTok .colon]).popSeq 0 :=
  ⟨(expect_empty_always_fails (NewStack [opTok .colon]) (by decide)).1,
    (expect_empty_always_fails (NewStack [opTok .colon]) (by decide)).2 0⟩

end StackClaims

section ParserLemmas

theorem Stack.wf_expect {s : Stack} (h : s.wf) (ts : List TokenType) :
    ((s.expect ts).2).wf := by
  unfold Stack.expect
  dsimp only
  split
  · exact Stack.wf_pop h
  · split <;> exact Stack.wf_push (Stack.wf_pop h) _

theorem Stack.wf_matchTok {s : Stack} (h : s.wf) (t : TokenType) :
    ((s.matchTok t).2).wf := by
  unfold Stack.matchTok
  dsimp only
  split
  · exact Stack.wf_pop h
  · exact Stack.wf_push (Stack.wf_pop h) _

theorem precedenceF_snd (im : InfixMap) (s : Stack) :
    (precedenceF im s).2 = (s.peek 0).2 := by
  unfold precedenceF
  dsimp only
  cases im (s.peek 0).1.type <;> rfl

theorem precedenceF_fst_eq {im : InfixMap} {s1 s2 : Stack} (h1 : s1.wf)
    (h2 : s2.wf) (h : s1.popSeq 0 = s2.popSeq 0) :
    (precedenceF im s1).1 = (precedenceF im s2).1 := by
  unfold precedenceF
  dsimp only
  rw [Stack.peek_zero_fst h1, Stack.peek_zero_fst h2, h]
  cases im (s2.popSeq 0).type <;> rfl

end ParserLemmas

section ParserClaims

/-- Claim C1, failing evaluation: on the token stream `)` the engine raises
the parse-failure panic `could not parse )` (a string value), and the
top-level `Parse` does not return it as an error value: in `recover` the
assertion `e.(error)` fails on the string panic value and itself panics with
a runtime type-assertion fault that escapes `Parse`. -/
theorem parse_failure_becomes_fault :
    run PrefixParsers InfixParsers 8 (.expr 0) (NewStack [opTok .parenR])
        = .error (.str "could not parse )")
      ∧ Parse PrefixParsers InfixParsers 8 (NewStack [opTok .parenR])
        = .fault "interface conversion: interface is string, not error" :=
  ⟨rfl, rfl⟩

/-- Claim C2, failing evaluation: an engine instance whose own prefix
registry is empty — it has no handler for the Name kind — still parses the
stream `a` successfully, because `parseExpression` looks prefix handlers up
in the package-level `PrefixParsers` map rather than in the instance's map;
per the claim, this instance would have to fail with a missing prefix
handler. -/
theorem prefix_registry_ignored :
    (fun _ => none : PrefixMap) TokenType.name = none
      ∧ run (fun _ => none) (fun _ => none) 5 (.expr 0) (NewStack [nameTok "a"])
        = .ok (.name "a", ⟨[eofTok], 1, []⟩) :=
  ⟨rfl, rfl⟩

/-- Claim C6: the associativity laws of the rendering contract — with the
default registries, `a + b - c` renders `((a + b) - c)`, `a * b / c` renders
`((a * b) / c)`, `a ^ b ^ c` renders `(a ^ (b ^ c))` and `a = b = c` renders
`(a = (b = c))`. -/
theorem associativity_rendering :
    parseRender [nameTok "a", opTok .plus, nameTok "b", opTok .minus,
        nameTok "c"] = some "((a + b) - c)"
      ∧ parseRender [nameTok "a", opTok .asterisk, nameTok "b", opTok .slash,
        nameTok "c"] = some "((a * b) / c)"
      ∧ parseRender [nameTok "a", opTok .caret, nameTok "b", opTok .caret,
        nameTok "c"] = some "(a ^ (b ^ c))"
      ∧ parseRender [nameTok "a", opTok .assignment, nameTok "b",
        opTok .assignment, nameTok "c"] = some "(a = (b = c))" :=
  ⟨rfl, rfl, rfl, rfl⟩

/-- Claim C7: when the next pending token has no registered infix handler,
the engine's loop treats it as binding power 0 and, for any non-negative
minimum binding power, terminates at once without failing — the resulting
buffer's observable pop sequence is unchanged, so the unregistered token is
left unconsumed for the caller. -/
theorem unregistered_infix_ends_loop (pm : PrefixMap) (im : InfixMap)
    (f : Nat) (min : Int) (left : Node) (s : Stack) (hw : s.wf)
    (hmin : 0 ≤ min) (hni : im ((s.peek 0).1.type) = none) :
    (precedenceF im s).1 = 0
      ∧ run pm im (f + 1) (.loop min left) s = .ok (left, (s.peek 0).2)
      ∧ ∀ n, ((s.peek 0).2).popSeq n = s.popSeq n := by
  have hpr : precedenceF im s = (0, (s.peek 0).2) := by
    unfold precedenceF
    dsimp only
    rw [hni]
  refine ⟨by rw [hpr], ?_, fun n => Stack.peek_popSeq hw 0 n⟩
  simp only [run, hpr]
  rw [if_neg (by omega : ¬ min < (0 : Int))]

/-- Witness for claim C7 at a concrete buffer whose next token is an
unregistered `)`. -/
theorem unregistered_infix_ends_loop_witness :
    (precedenceF InfixParsers (NewStack [opTok .parenR])).1 = 0
      ∧ run PrefixParsers InfixParsers 1 (.loop 0 (.name "x"))
          (NewStack [opTok .parenR])
          = .ok (.name "x", ((NewStack [opTok .parenR]).peek 0).2)
      ∧ (((NewStack [opTok .parenR]).peek 0).2).popSeq 0
          = (NewStack [opTok .parenR]).popSeq 0 :=
  ⟨(unregistered_infix_ends_loop PrefixParsers InfixParsers 0 0 (.name "x")
      (NewStack [opTok .parenR]) (by decide) (by decide) rfl).1,
    (unregistered_infix_ends_loop PrefixParsers InfixParsers 0 0 (.name "x")
      (NewStack [opTok .parenR]) (by decide) (by decide) rfl).2.1,
    (unregistered_infix_ends_loop PrefixParsers InfixParsers 0 0 (.name "x")
      (NewStack [opTok .parenR]) (by decide) (by decide) rfl).2.2 0⟩

/-- Claim C8: the assignment infix handler fails with the invalid-construct
panic `the left-hand side of an assignment must be a name` whenever the
already-parsed left node is not a Name node; when the left node is a Name,
it parses the right side at binding power `power - 1` and wraps a successful
result in an Assign node (propagating a failing right side unchanged). -/
theorem assign_requires_name (pm : PrefixMap) (im : InfixMap) (f : Nat)
    (power : Int) (left : Node) (s : Stack) :
    ((∀ n, left ≠ Node.name n) →
      AssignParser.parse pm im f power left s
        = .error (.str "the left-hand side of an assignment must be a name"))
      ∧ (∀ n, left = Node.name n →
        AssignParser.parse pm im f power left s
          = (match run pm im f (.expr (power - 1)) s with
             | .error e => .error e
             | .ok (r, s1) => .ok (.assign n r, s1))) := by
  constructor
  · intro hne
    cases left
    case name n => exact absurd rfl (hne n)
    all_goals rfl
  · intro n he
    subst he
    rfl

/-- Witness for claim C8: a Binary left node is rejected, a Name left node
builds the Assign node around the right-hand sub-parse. -/
theorem assign_requires_name_witness :
    AssignParser.parse PrefixParsers InfixParsers 3 1
        (.binary (.name "a") .plus (.name "b")) (NewStack [])
        = .error (.str "the left-hand side of an assignment must be a name")
      ∧ AssignParser.parse PrefixParsers InfixParsers 3 1 (.name "a")
          (NewStack [nameTok "b"])
          = (match run PrefixParsers InfixParsers 3 (.expr 0)
                (NewStack [nameTok "b"]) with
             | .error e => .error e
             | .ok (r, s1) => .ok (.assign "a" r, s1)) :=
  ⟨(assign_requires_name PrefixParsers InfixParsers 3 1
      (.binary (.name "a") .plus (.name "b")) (NewStack [])).1
      (fun _ h => Node.noConfusion h),
    (assign_requires_name PrefixParsers InfixParsers 3 1 (.name "a")
      (NewStack [nameTok "b"])).2 "a" rfl⟩

end ParserClaims

section LoopInvariant

theorem bindRes_ok {r : PRes} {k : Node → Stack → PRes} {n : Node} {s' : Stack}
    (h : bindRes r k = .ok (n, s')) :
    ∃ a s2, r = .ok (a, s2) ∧ k a s2 = .ok (n, s') := by
  cases r with
  | error e => exact Except.noConfusion h
  | ok p =>
    rcases p with ⟨a, s2⟩
    exact ⟨a, s2, rfl, h⟩

theorem bindTok_ok {r : Except PanicV Token × Stack} {k : Stack → PRes}
    {n : Node} {s' : Stack} (h : bindTok r k = .ok (n, s')) :
    k r.2 = .ok (n, s') := by
  unfold bindTok at h
  cases hr : r.1 with
  | error e => rw [hr] at h; exact Except.noConfusion h
  | ok t => rw [hr] at h; exact h

/-- Combined invariant of every successful engine step: the resulting buffer
is well-formed, and whenever the step was a `parseExpression` call or its
infix loop with minimum binding power `min`, the precedence of the next
pending token afterwards is at most `min`. -/
theorem run_ok_inv {pm : PrefixMap} {im : InfixMap} :
    ∀ (f : Nat) (c : Call) (s : Stack) (n : Node) (s' : Stack),
      s.wf → run pm im f c s = .ok (n, s') →
        s'.wf ∧ ∀ (min : Int) (left : Node),
          (c = .expr min ∨ c = .loop min left) → (precedenceF im s').1 ≤ min := by
  intro f
  induction f with
  | zero =>
    intro c s n s' hw h
    simp only [run] at h
    exact Except.noConfusion h
  | succ f ih =>
    intro c s n s' hw h
    cases c with
    | expr min =>
      simp only [run] at h
      have hw1 : (s.pop.2).wf := Stack.wf_pop hw
      cases hpp : PrefixParsers (s.pop.1).type with
      | none => rw [hpp] at h; exact Except.noConfusion h
      | some pp =>
        rw [hpp] at h
        cases pp with
        | nameP v =>
          have hres := ih _ _ _ _ hw1 h
          refine ⟨hres.1, ?_⟩
          rintro min' left'' (h1 | h1) <;> cases h1 <;>
            exact hres.2 _ _ (Or.inr rfl)
        | groupP v =>
          obtain ⟨n2, s2, hr, h⟩ := bindRes_ok h
          try dsimp only at h
          have h := bindTok_ok h
          try dsimp only at h
          have hw2 : s2.wf := (ih _ _ _ _ hw1 hr).1
          have hw3 : ((s2.expect [.parenR]).2).wf := Stack.wf_expect hw2 _
          have hres := ih _ _ _ _ hw3 h
          refine ⟨hres.1, ?_⟩
          rintro min' left'' (h1 | h1) <;> cases h1 <;>
            exact hres.2 _ _ (Or.inr rfl)
        | unaryP v =>
          obtain ⟨r, s2, hr, h⟩ := bindRes_ok h
          try dsimp only at h
          have hw2 : s2.wf := (ih _ _ _ _ hw1 hr).1
          have hres := ih _ _ _ _ hw2 h
          refine ⟨hres.1, ?_⟩
          rintro min' left'' (h1 | h1) <;> cases h1 <;>
            exact hres.2 _ _ (Or.inr rfl)
    | loop min left =>
      simp only [run] at h
      rw [precedenceF_snd im s] at h
      have hwp : ((s.peek 0).2).wf := Stack.wf_peek hw 0
      have hw2 : ((s.peek 0).2.pop.2).wf := Stack.wf_pop hwp
      by_cases hlt : min < (precedenceF im s).1
      · rw [if_pos hlt] at h
        cases him : im ((s.peek 0).2.pop.1).type with
        | none => rw [him] at h; exact Except.noConfusion h
        | some ip =>
          rw [him] at h
          cases ip with
          | assignP v =>
            rcases left with nm | _ | _ | _ | _ | _ | _ | _
            · obtain ⟨r, s3, hr, h⟩ := bindRes_ok h
              try dsimp only at h
              have hw3 : s3.wf := (ih _ _ _ _ hw2 hr).1
              have hres := ih _ _ _ _ hw3 h
              refine ⟨hres.1, ?_⟩
              rintro min' left'' (h1 | h1) <;> cases h1 <;>
                exact hres.2 _ _ (Or.inr rfl)
            all_goals exact Except.noConfusion h
          | ternaryP v =>
            obtain ⟨thenN, s3, hr1, h⟩ := bindRes_ok h
            try dsimp only at h
            have h := bindTok_ok h
            try dsimp only at h
            obtain ⟨elseN, s5, hr2, h⟩ := bindRes_ok h
            try dsimp only at h
            have hw3 : s3.wf := (ih _ _ _ _ hw2 hr1).1
            have hw4 : ((s3.expect [.colon]).2).wf := Stack.wf_expect hw3 _
            have hw5 : s5.wf := (ih _ _ _ _ hw4 hr2).1
            have hres := ih _ _ _ _ hw5 h
            refine ⟨hres.1, ?_⟩
            rintro min' left'' (h1 | h1) <;> cases h1 <;>
              exact hres.2 _ _ (Or.inr rfl)
          | binaryP v =>
            obtain ⟨r, s3, hr, h⟩ := bindRes_ok h
            try dsimp only at h
            have hw3 : s3.wf := (ih _ _ _ _ hw2 hr).1
            have hres := ih _ _ _ _ hw3 h
            refine ⟨hres.1, ?_⟩
            rintro min' left'' (h1 | h1) <;> cases h1 <;>
              exact hres.2 _ _ (Or.inr rfl)
          | binaryRightP v =>
            obtain ⟨r, s3, hr, h⟩ := bindRes_ok h
            try dsimp only at h
            have hw3 : s3.wf := (ih _ _ _ _ hw2 hr).1
            have hres := ih _ _ _ _ hw3 h
            refine ⟨hres.1, ?_⟩
            rintro min' left'' (h1 | h1) <;> cases h1 <;>
              exact hres.2 _ _ (Or.inr rfl)
          | postfixP v =>
            have hres := ih _ _ _ _ hw2 h
            refine ⟨hres.1, ?_⟩
            rintro min' left'' (h1 | h1) <;> cases h1 <;>
              exact hres.2 _ _ (Or.inr rfl)
          | functionP v =>
            have hwm : (((s.peek 0).2.pop.2.matchTok .parenR).2).wf :=
              Stack.wf_matchTok hw2 _
            by_cases hm : ((s.peek 0).2.pop.2.matchTok .parenR).1 = true
            · rw [if_pos hm] at h
              have hres := ih _ _ _ _ hwm h
              refine ⟨hres.1, ?_⟩
              rintro min' left'' (h1 | h1) <;> cases h1 <;>
                exact hres.2 _ _ (Or.inr rfl)
            · rw [if_neg hm] at h
              obtain ⟨argsN, s4, hr, h⟩ := bindRes_ok h
              try dsimp only at h
              have h := bindTok_ok h
              try dsimp only at h
              have hw4 : s4.wf := (ih _ _ _ _ hwm hr).1
              have hw5 : ((s4.expect [.parenR]).2).wf := Stack.wf_expect hw4 _
              have hres := ih _ _ _ _ hw5 h
              refine ⟨hres.1, ?_⟩
              rintro min' left'' (h1 | h1) <;> cases h1 <;>
                exact hres.2 _ _ (Or.inr rfl)
      · rw [if_neg hlt] at h
        rw [Except.ok.injEq, Prod.mk.injEq] at h
        obtain ⟨h1, h2⟩ := h
        subst h2
        refine ⟨hwp, ?_⟩
        rintro min' left'' (hc | hc) <;> cases hc
        have hfst : (precedenceF im ((s.peek 0).2)).1 = (precedenceF im s).1 :=
          precedenceF_fst_eq hwp hw (Stack.peek_popSeq hw 0 0)
        rw [hfst]
        omega
    | fnArgs acc =>
      simp only [run] at h
      obtain ⟨a, s1, hr, h⟩ := bindRes_ok h
      try dsimp only at h
      have hw1 : s1.wf := (ih _ _ _ _ hw hr).1
      have hwm : ((s1.matchTok .comma).2).wf := Stack.wf_matchTok hw1 _
      by_cases hm : ((s1.matchTok .comma).1) = true
      · rw [if_pos hm] at h
        refine ⟨(ih _ _ _ _ hwm h).1, ?_⟩
        rintro min' left'' (h1 | h1) <;> cases h1
      · rw [if_neg hm] at h
        rw [Except.ok.injEq, Prod.mk.injEq] at h
        obtain ⟨h1, h2⟩ := h
        subst h2
        refine ⟨hwm, ?_⟩
        rintro min' left'' (h1 | h1) <;> cases h1

/-- Claim C9: whenever a `parseExpression(min)` call returns normally, the
next pending token of the buffer left behind has precedence at most `min`
(0 when no infix handler is registered for it), so terminator tokens at or
below the caller's threshold are left unconsumed for the caller. -/
theorem parseExpression_leaves_low_precedence (pm : PrefixMap) (im : InfixMap)
    (f : Nat) (min : Int) (s : Stack) (n : Node) (s' : Stack) (hw : s.wf)
    (h : parseExpression pm im f min s = .ok (n, s')) :
    (precedenceF im s').1 ≤ min :=
  (run_ok_inv f (.expr min) s n s' hw h).2 min n (Or.inl rfl)

/-- Witness for claim C9 on the concrete parse of `a + b` at minimum binding
power 0. -/
theorem parseExpression_leaves_low_precedence_witness :
    (precedenceF InfixParsers ⟨[eofTok], 1, []⟩).1 ≤ 0 :=
  parseExpression_leaves_low_precedence PrefixParsers InfixParsers 10 0
    (NewStack [nameTok "a", opTok .plus, nameTok "b"])
    (.binary (.name "a") .plus (.name "b")) ⟨[eofTok], 1, []⟩ (by decide) rfl

end LoopInvariant

end Bantam
